import Mathlib

/-!
Verification development for the codex-session-manager repository.

Strings from the TypeScript source are modelled as `List Char`; JavaScript
numbers are modelled as `Int` or `Nat` where the code only ever handles
integral values (epoch milliseconds, lengths, indices).  Host functions that
the source calls but does not implement (`Date.parse`, `new Date(iso)`,
`Date.toISOString`, `JSON.parse`, `JSON.stringify`) are modelled as explicit
oracle parameters, so every theorem quantifies over their behaviour and
states only what the repository's own code guarantees.
-/

namespace CodexSM

/-- Characters matched by the JavaScript `\s` class (ASCII portion, which is
all the repository's data ever contains). -/
def isWsJS (c : Char) : Bool :=
  c = ' ' || c = '\t' || c = '\n' || c = '\r' || c = '\x0b' || c = '\x0c'

/-- Characters matched by the separator class `[\s,]` used by
`parseTagsInput` and `getTagFragment` in src/session-store.ts. -/
def isSepChar (c : Char) : Bool :=
  isWsJS c || c = ','

/-- Model of `String.prototype.toLowerCase` (character-wise lowering). -/
def lowerL (s : List Char) : List Char :=
  s.map Char.toLower

/-- Leading-whitespace removal, one half of `String.prototype.trim`. -/
def trimStartL (s : List Char) : List Char :=
  s.dropWhile isWsJS

/-- Trailing-whitespace removal, the other half of `String.prototype.trim`. -/
def trimEndL (s : List Char) : List Char :=
  (s.reverse.dropWhile isWsJS).reverse

/-- Model of `String.prototype.trim`. -/
def jsTrim (s : List Char) : List Char :=
  trimEndL (trimStartL s)

/-- Model of `String.prototype.startsWith`: `startsWithL p s` holds when `p`
is an initial segment of `s`. -/
def startsWithL : List Char → List Char → Bool
  | [], _ => true
  | _ :: _, [] => false
  | p :: ps, c :: cs => p == c && startsWithL ps cs

/-- Model of `String.prototype.includes`: scans for the needle at every
position of the haystack. -/
def includesL (needle : List Char) : List Char → Bool
  | [] => startsWithL needle []
  | c :: cs => startsWithL needle (c :: cs) || includesL needle cs

/-- Model of `String.prototype.split` with a single-character separator
(used with `"\n"` and `" "` in the source). -/
def splitOnChar (sep : Char) : List Char → List (List Char)
  | [] => [[]]
  | c :: cs =>
    match splitOnChar sep cs with
    | [] => [[]]
    | l :: ls => if c = sep then [] :: l :: ls else (c :: l) :: ls

/-- Model of `Array.prototype.join("\n")` (and `join(" ")` etc. via the
separator argument). -/
def joinSep (sep : Char) : List (List Char) → List Char
  | [] => []
  | [l] => l
  | l :: ls => l ++ sep :: joinSep sep ls

/-- Model of `String.prototype.split(/[\s,]+/)`: separators are maximal runs
of separator characters, so only the last character of a run closes a
field; an empty field appears at either end when the string starts or ends
with a separator run, exactly as in JavaScript. -/
def splitRuns (isSep : Char → Bool) : List Char → List (List Char)
  | [] => [[]]
  | c :: cs =>
    if isSep c then
      match cs with
      | [] => [[], []]
      | d :: _ => if isSep d then splitRuns isSep cs else [] :: splitRuns isSep cs
    else
      match splitRuns isSep cs with
      | [] => [[c]]
      | l :: ls => (c :: l) :: ls

/-- Worker for `uniqueTags`: `seen` is the set of lower-cased keys already
emitted (the `Set` in the source). -/
def uniqueTagsAux (seen : List (List Char)) : List (List Char) → List (List Char)
  | [] => []
  | t :: ts =>
    if lowerL t ∈ seen then uniqueTagsAux seen ts
    else t :: uniqueTagsAux (lowerL t :: seen) ts

/-- Model of `uniqueTags` in src/session-store.ts: case-insensitive
deduplication keeping the first-seen casing and the original order. -/
def uniqueTags (tags : List (List Char)) : List (List Char) :=
  uniqueTagsAux [] tags

/-! JSON values.  The session files are newline-delimited JSON; the code
manipulates parsed values through dynamic property access, modelled here by
association lists of fields.  JSON objects have unique keys, so replacing
the first occurrence of a key models JavaScript property assignment. -/

inductive JsonVal where
  | null
  | bool (b : Bool)
  | num (n : Int)
  | str (s : List Char)
  | arr (elems : List JsonVal)
  | obj (fields : List (List Char × JsonVal))

/-- JavaScript truthiness of a JSON value (`NaN` cannot arise from JSON). -/
def truthy : JsonVal → Bool
  | .null => false
  | .bool b => b
  | .num n => n ≠ 0
  | .str s => s ≠ []
  | .arr _ => true
  | .obj _ => true

/-- Property read on an object's field list: the first matching binding. -/
def objGet : List (List Char × JsonVal) → List Char → Option JsonVal
  | [], _ => none
  | f :: rest, k => if f.1 = k then some f.2 else objGet rest k

/-- Property assignment: replace the (unique) existing binding in place, or
append a new one, as JavaScript objects do. -/
def objSet (o : List (List Char × JsonVal)) (k : List Char) (v : JsonVal) :
    List (List Char × JsonVal) :=
  match o with
  | [] => [(k, v)]
  | f :: rest => if f.1 = k then (k, v) :: rest else f :: objSet rest k v

/-- Model of the `delete` operator on an object property. -/
def objDelete (o : List (List Char × JsonVal)) (k : List Char) :
    List (List Char × JsonVal) :=
  o.filter (fun f => ¬ f.1 = k)

/-- Property read on an arbitrary JSON value: non-objects have no own
properties, so the read yields `undefined`. -/
def jsGet (v : JsonVal) (k : List Char) : Option JsonVal :=
  match v with
  | .obj fields => objGet fields k
  | _ => none

/-! Timestamp resolution (src/session-store.ts).

`Date.parse` and the `Date` constructor are host functions; they appear as
oracle parameters `dateParse` (returning epoch milliseconds, or `none` for
`NaN`) and `mkDate` (building a `Date` from the six captured digit groups;
the result may be an invalid date, modelled by `JsDate.time = none`). -/

/-- A JavaScript `Date` object: a time value that is either a finite number
of epoch milliseconds or `NaN` (an "Invalid Date").  Either way the object
itself is truthy. -/
structure JsDate where
  time : Option Int
deriving DecidableEq

/-- The six capture groups of the filename regex
`/(20\d{2})-(\d{2})-(\d{2})T(\d{2})-(\d{2})-(\d{2})/`. -/
structure TsMatch where
  year : List Char
  month : List Char
  day : List Char
  hour : List Char
  minute : List Char
  second : List Char
deriving DecidableEq

/-- Attempt to match the filename timestamp regex at the start of the
string.  The pattern is fixed-shape: literal `20`, two digits, `-`, two
digits, `-`, two digits, `T`, two digits, `-`, two digits, `-`, two
digits. -/
def matchTsAt : List Char → Option TsMatch
  | '2' :: '0' :: y3 :: y4 :: '-' :: m1 :: m2 :: '-' :: d1 :: d2 :: 'T' ::
      h1 :: h2 :: '-' :: n1 :: n2 :: '-' :: s1 :: s2 :: _ =>
    if y3.isDigit && y4.isDigit && m1.isDigit && m2.isDigit &&
        d1.isDigit && d2.isDigit && h1.isDigit && h2.isDigit &&
        n1.isDigit && n2.isDigit && s1.isDigit && s2.isDigit then
      some ⟨['2', '0', y3, y4], [m1, m2], [d1, d2], [h1, h2], [n1, n2], [s1, s2]⟩
    else none
  | _ => none

/-- Leftmost match of the filename timestamp regex: try each start
position from the left, as the regex engine does for this fixed-shape
pattern. -/
def findTimestampMatch : List Char → Option TsMatch
  | [] => none
  | c :: rest =>
    match matchTsAt (c :: rest) with
    | some m => some m
    | none => findTimestampMatch rest

/-- Model of `parseTimestamp` in src/session-store.ts: non-strings yield
`null`; `Date.parse` failures (`NaN`) yield `null`; otherwise a valid
`Date`. -/
def parseTimestamp (dateParse : List Char → Option Int) :
    Option (List Char) → Option JsDate
  | none => none
  | some s =>
    match dateParse s with
    | none => none
    | some t => some ⟨some t⟩

/-- Model of `parseDateFromFilename` in src/session-store.ts: `null` when
the regex does not match, otherwise the `Date` built from the captures
(possibly invalid). -/
def parseDateFromFilename (mkDate : TsMatch → JsDate) (fileName : List Char) :
    Option JsDate :=
  (findTimestampMatch fileName).map mkDate

/-- The `sortDate` expression of `parseSessionFile`
(src/session-store.ts:213-217):
`parseTimestamp(timestamp) || parseDateFromFilename(fileName) || stat.mtime
|| null`.  A `Date` object is always truthy, so `stat.mtime` (a valid
`Date`) ends the chain whenever the first two alternatives are `null`. -/
def sessionSortDate (dateParse : List Char → Option Int)
    (mkDate : TsMatch → JsDate) (timestamp : Option (List Char))
    (fileName : List Char) (mtime : JsDate) : Option JsDate :=
  match parseTimestamp dateParse timestamp with
  | some d => some d
  | none =>
    match parseDateFromFilename mkDate fileName with
    | some d => some d
    | none => some mtime

/-- The record's `sortKey` (src/session-store.ts:230):
`sortDate ? sortDate.getTime() : 0`.  The result is a JavaScript number;
`none` models `NaN` (from an invalid date). -/
def sortKeyOfDate : Option JsDate → Option Int
  | none => some 0
  | some d => d.time

/-- Modelled from the spec: the file-name timestamp pattern as the spec
sentence describes it — "4-digit year, then month/day/hour/minute/second,
each 2-digit, dash-separated" — i.e. with an unconstrained 4-digit year,
matched at the start of the string. -/
def specTimestampMatchAt : List Char → Option TsMatch
  | y1 :: y2 :: y3 :: y4 :: '-' :: m1 :: m2 :: '-' :: d1 :: d2 :: 'T' ::
      h1 :: h2 :: '-' :: n1 :: n2 :: '-' :: s1 :: s2 :: _ =>
    if y1.isDigit && y2.isDigit && y3.isDigit && y4.isDigit &&
        m1.isDigit && m2.isDigit && d1.isDigit && d2.isDigit &&
        h1.isDigit && h2.isDigit && n1.isDigit && n2.isDigit &&
        s1.isDigit && s2.isDigit then
      some ⟨[y1, y2, y3, y4], [m1, m2], [d1, d2], [h1, h2], [n1, n2], [s1, s2]⟩
    else none
  | _ => none

/-- Modelled from the spec: leftmost match of the spec's pattern. -/
def specFindTimestamp : List Char → Option TsMatch
  | [] => none
  | c :: rest =>
    match specTimestampMatchAt (c :: rest) with
    | some m => some m
    | none => specFindTimestamp rest

/-- Modelled from the spec: the sort-date fallback chain as claimed, using
the spec's looser file-name pattern. -/
def specSessionSortDate (dateParse : List Char → Option Int)
    (mkDate : TsMatch → JsDate) (timestamp : Option (List Char))
    (fileName : List Char) (mtime : JsDate) : Option JsDate :=
  match parseTimestamp dateParse timestamp with
  | some d => some d
  | none =>
    match (specFindTimestamp fileName).map mkDate with
    | some d => some d
    | none => some mtime

/-! Session records (src/types.ts).  `sortKey` is modelled as an integer:
the code stores epoch milliseconds of a valid date, or `0` when no date was
determined. -/

inductive ArchiveFilter where
  | all
  | active
  | archived
deriving DecidableEq

inductive SortOrder where
  | asc
  | desc
deriving DecidableEq

structure SessionRecord where
  id : Option (List Char) := none
  filePath : List Char
  fileName : List Char
  archived : Bool
  cwd : Option (List Char) := none
  title : Option (List Char) := none
  tags : List (List Char)
  timestamp : Option (List Char) := none
  dateLabel : Option (List Char) := none
  displayName : List Char
  sortKey : Int
  originator : Option (List Char) := none
  cliVersion : Option (List Char) := none
  source : Option (List Char) := none
  modelProvider : Option (List Char) := none
deriving DecidableEq

/-- The predicate of the `sessions.filter` callback in `filterSessions`
(src/session-store.ts:274-287); `trimmed` is recomputed from the query,
which the source hoists out of the closure. -/
def sessionMatches (query : List Char) (archiveFilter : ArchiveFilter)
    (session : SessionRecord) : Bool :=
  let trimmed := lowerL (jsTrim query)
  if archiveFilter == ArchiveFilter.archived && !session.archived then false
  else if archiveFilter == ArchiveFilter.active && session.archived then false
  else if trimmed.isEmpty then true
  else
    includesL trimmed (lowerL session.displayName) ||
      includesL trimmed (lowerL (joinSep ' ' session.tags))

/-- Model of `filterSessions` (src/session-store.ts:268-288). -/
def filterSessions (sessions : List SessionRecord) (query : List Char)
    (archiveFilter : ArchiveFilter) : List SessionRecord :=
  sessions.filter (sessionMatches query archiveFilter)

/-- Ascending comparison by sort key, the comparator
`(a, b) => a.sortKey - b.sortKey`. -/
def sortLeAsc (a b : SessionRecord) : Prop := a.sortKey ≤ b.sortKey

/-- Descending comparison by sort key, the comparator
`(a, b) => b.sortKey - a.sortKey`. -/
def sortLeDesc (a b : SessionRecord) : Prop := b.sortKey ≤ a.sortKey

instance : DecidableRel sortLeAsc := fun a b => by unfold sortLeAsc; infer_instance

instance : DecidableRel sortLeDesc := fun a b => by unfold sortLeDesc; infer_instance

/-- Model of `sortSessionsByDate` (src/session-store.ts:302-313).
`Array.prototype.sort` with a consistent comparator is a stable sort, whose
output is the same as insertion sort's. -/
def sortSessionsByDate (sessions : List SessionRecord) (order : SortOrder) :
    List SessionRecord :=
  match order with
  | .asc => List.insertionSort sortLeAsc sessions
  | .desc => List.insertionSort sortLeDesc sessions

/-! Tag input parsing (src/session-store.ts:290-300) and the suggestion
engine (src/ui-utils.ts). -/

/-- Model of `parseTagsInput`: empty-after-trim input yields `[]`;
otherwise split on separator runs, trim each token, drop empties,
deduplicate case-insensitively. -/
def parseTagsInput (input : List Char) : List (List Char) :=
  if (jsTrim input).isEmpty then []
  else
    uniqueTags (((splitRuns isSepChar input).map jsTrim).filter (fun t => !t.isEmpty))

/-- Model of `getTagFragment` in src/ui-utils.ts.  The regex
`^(.*?)([^,\s]*)$` captures, as the fragment, the maximal all-non-separator
suffix of the input (the lazy `.*?` takes the shortest possible text such
that the rest matches `[^,\s]*$`), and everything before it as the
prefix part. -/
def getTagFragment (input : List Char) : List Char × List Char :=
  ((input.reverse.dropWhile (fun c => !isSepChar c)).reverse,
    (input.reverse.takeWhile (fun c => !isSepChar c)).reverse)

/-- The `usedSet` of `getTagSuggestions`: lower-cased tags already present
in the input, with the fragment currently being typed removed so a tag is
never excluded for matching its own partial text. -/
def usedTagKeys (input : List Char) : List (List Char) :=
  let fragmentLower := lowerL (getTagFragment input).2
  let used := (parseTagsInput input).map lowerL
  if fragmentLower.isEmpty then used
  else used.filter (fun t => t ≠ fragmentLower)

/-- The `matches` array of `getTagSuggestions` (src/ui-utils.ts): vocabulary
tags not already used whose lower-cased form starts with the lower-cased
fragment (every tag matches an empty fragment). -/
def tagMatches (input : List Char) (allTags : List (List Char)) :
    List (List Char) :=
  let fragmentLower := lowerL (getTagFragment input).2
  allTags.filter fun tag =>
    let lower := lowerL tag
    if (usedTagKeys input).contains lower then false
    else if fragmentLower.isEmpty then true
    else startsWithL fragmentLower lower

/-- Case-insensitive comparison used by the suggestion sort
(`a.toLowerCase().localeCompare(b.toLowerCase())`, modelled
lexicographically by character code). -/
def tagLe (a b : List Char) : Prop := lowerL a ≤ lowerL b

instance : DecidableRel tagLe := fun a b => by unfold tagLe; infer_instance

/-- Model of `getTagSuggestions` (src/ui-utils.ts): filter, sort
case-insensitively (stable), cap at `limit`. -/
def getTagSuggestions (input : List Char) (allTags : List (List Char))
    (limit : Nat) : List (List Char) :=
  if allTags.isEmpty then []
  else (List.insertionSort tagLe (tagMatches input allTags)).take limit

/-! The terminal UI helpers (the unnamed main module, src/unnamed/part_000).
JavaScript numbers appearing here are integral throughout; `Math.floor` on
a division of non-negative integers is integer division. -/

/-- Model of `getListWindow` (part_000:158-171).  `selectedIndex` is the
module-level `state.selectedIndex`, passed explicitly. -/
def getListWindow (listLength viewSize selectedIndex : Int) : Int × Int :=
  if listLength ≤ viewSize then (0, listLength)
  else
    let half := viewSize / 2
    let start0 := selectedIndex - half
    let start1 := if start0 < 0 then 0 else start0
    let start2 :=
      if start1 + viewSize > listLength then max 0 (listLength - viewSize)
      else start1
    (start2, min listLength (start2 + viewSize))

namespace Preview

/-- Model of `truncate` in src/preview.ts:73-81.  The budget is a
non-negative count of characters. -/
def truncate (text : List Char) (maxChars : Nat) : List Char :=
  if text.length ≤ maxChars then text
  else if maxChars ≤ 3 then text.take maxChars
  else text.take (maxChars - 3) ++ "...".data

end Preview

namespace Tui

/-- Model of `truncate` in the main module (part_000:77-85); textually the
same function as the preview one. -/
def truncate (text : List Char) (width : Nat) : List Char :=
  if text.length ≤ width then text
  else if width ≤ 3 then text.take width
  else text.take (width - 3) ++ "...".data

/-- The `while (remaining.length > width)` loop of `wrapText`
(part_000:113-116).  Each iteration removes `width ≥ 1` characters, so the
word's length bounds the iteration count and serves as fuel; `wrapText`
only calls this with `width ≥ 1` (for `width = 0` the source loop would
not terminate, but it is unreachable behind the `width <= 0` guard). -/
def hardSplitFuel : Nat → Nat → List Char → List (List Char) × List Char
  | 0, _, word => ([], word)
  | fuel + 1, width, word =>
    if word.length ≤ width ∨ width = 0 then ([], word)
    else
      let r := hardSplitFuel fuel width (word.drop width)
      (word.take width :: r.1, r.2)

/-- Hard-splitting a word: the emitted full-width chunks and the remaining
tail (which becomes the new current line). -/
def hardSplit (width : Nat) (word : List Char) : List (List Char) × List Char :=
  hardSplitFuel word.length width word

/-- One iteration of the `for (const word of words)` loop of `wrapText`
(part_000:103-130); the state is `(lines, current)`. -/
def wrapStep (width : Nat) (st : List (List Char) × List Char)
    (word : List Char) : List (List Char) × List Char :=
  if word.isEmpty then st
  else if width < word.length then
    ((if st.2.isEmpty then st.1 else st.1 ++ [st.2]) ++ (hardSplit width word).1,
      (hardSplit width word).2)
  else if st.2.isEmpty then (st.1, word)
  else if st.2.length + 1 + word.length ≤ width then (st.1, st.2 ++ ' ' :: word)
  else (st.1 ++ [st.2], word)

/-- The post-loop `if (current) lines.push(current)` (part_000:132-134). -/
def flushCurrent (st : List (List Char) × List Char) : List (List Char) :=
  if st.2.isEmpty then st.1 else st.1 ++ [st.2]

/-- Model of `wrapText` (part_000:95-139).  Widths are modelled as `Nat`;
the guard `width <= 0` becomes `width = 0`. -/
def wrapText (text : List Char) (width : Nat) : List (List Char) :=
  if width = 0 then []
  else
    let st := (splitOnChar ' ' text).foldl (wrapStep width) ([], [])
    let lines := flushCurrent st
    let lines := if lines.isEmpty then [[]] else lines
    lines.map (fun l => truncate l width)

end Tui

/-- Modelled from the spec: greedy word wrap.  Fill the current line while
the next word fits with a single separating space, start a new line when
it does not, and hard-split any word wider than the column into
width-sized chunks, the last chunk opening the next line.  `cur` is the
line being filled; a trailing non-empty line is emitted at the end. -/
def specGreedy (width : Nat) : List (List Char) → List Char → List (List Char)
  | [], cur => if cur.isEmpty then [] else [cur]
  | w :: ws, cur =>
    if width < w.length then
      (if cur.isEmpty then [] else [cur]) ++ (Tui.hardSplit width w).1 ++
        specGreedy width ws (Tui.hardSplit width w).2
    else if cur.isEmpty then specGreedy width ws w
    else if cur.length + 1 + w.length ≤ width then
      specGreedy width ws (cur ++ ' ' :: w)
    else cur :: specGreedy width ws w

/-- Modelled from the spec: greedy word-wrap of a text to a column width,
always yielding at least one (possibly empty) line.  The words are the
non-empty fields between spaces. -/
def specGreedyWrap (text : List Char) (width : Nat) : List (List Char) :=
  let lines :=
    specGreedy width ((splitOnChar ' ' text).filter (fun w => !w.isEmpty)) []
  if lines.isEmpty then [[]] else lines

/-! Metadata update (src/session-store.ts:315-363) and the metadata
projection of `parseSessionFile` (src/session-store.ts:189-242).  The host
JSON functions appear as a codec of oracles. -/

def typeKey : List Char := "type".data

def payloadKey : List Char := "payload".data

def titleKey : List Char := "title".data

def nameKey : List Char := "name".data

def tagsKey : List Char := "tags".data

/-- The host `JSON.parse` / `JSON.stringify` pair. -/
structure JsonCodec where
  parse : List Char → Option JsonVal
  stringify : JsonVal → List Char

/-- The `updates` argument of `updateSessionMetadata`
(`{ title?: string; tags?: string[] }`). -/
structure MetaUpdates where
  title : Option (List Char)
  tags : Option (List (List Char))

/-- String extraction used by `normalizeTags`'s
`value.filter(item => typeof item === "string")`. -/
def jsonStr : JsonVal → Option (List Char)
  | .str s => some s
  | _ => none

/-- Model of `pickTitle` (src/session-store.ts:146-156): the trimmed
`title` string field if non-empty, else the trimmed legacy `name` field if
non-empty, else `undefined`. -/
def pickTitle (payload : JsonVal) : Option (List Char) :=
  let title :=
    match jsGet payload titleKey with
    | some (.str s) => jsTrim s
    | _ => []
  if title.isEmpty then
    let name :=
      match jsGet payload nameKey with
      | some (.str s) => jsTrim s
      | _ => []
    if name.isEmpty then none else some name
  else some title

/-- Model of `normalizeTags` (src/session-store.ts:88-101).  `none` models
an absent (`undefined`) field; `value == null` also matches JSON `null`.
Non-array, non-string values leave the raw list empty. -/
def normalizeTags : Option JsonVal → List (List Char)
  | none => []
  | some .null => []
  | some (.arr xs) =>
      uniqueTags (((xs.filterMap jsonStr).map jsTrim).filter (fun t => !t.isEmpty))
  | some (.str s) =>
      uniqueTags (((splitRuns isSepChar s).map jsTrim).filter (fun t => !t.isEmpty))
  | some _ => []

/-- The `if (updates.title !== undefined)` block of `updateSessionMetadata`
(src/session-store.ts:338-347): a present title is trimmed and either set
on both the `title` and legacy `name` fields or, when empty after
trimming, removes both. -/
def applyTitleUpdate (payload : List (List Char × JsonVal)) :
    Option (List Char) → List (List Char × JsonVal)
  | none => payload
  | some t =>
    let cleaned := jsTrim t
    if cleaned.isEmpty then objDelete (objDelete payload titleKey) nameKey
    else objSet (objSet payload titleKey (.str cleaned)) nameKey (.str cleaned)

/-- The `if (updates.tags !== undefined)` block of `updateSessionMetadata`
(src/session-store.ts:349-358): a present tag list is trimmed, cleared of
empties, deduplicated case-insensitively, and either set or, when empty
after cleaning, the `tags` field is removed entirely. -/
def applyTagsUpdate (payload : List (List Char × JsonVal)) :
    Option (List (List Char)) → List (List Char × JsonVal)
  | none => payload
  | some ts =>
    let cleanedTags := uniqueTags ((ts.map jsTrim).filter (fun t => !t.isEmpty))
    if cleanedTags.isEmpty then objDelete payload tagsKey
    else objSet payload tagsKey (.arr (cleanedTags.map .str))

/-- Both payload mutations of `updateSessionMetadata`, in source order:
title first, then tags. -/
def applyMetaUpdates (payload : List (List Char × JsonVal)) (u : MetaUpdates) :
    List (List Char × JsonVal) :=
  applyTagsUpdate (applyTitleUpdate payload u.title) u.tags

/-- The envelope handling of `updateSessionMetadata`
(src/session-store.ts:319-361) up to the updated metadata value: reject an
empty first line, an unparseable first line, and a first line that is not a
`session_meta` envelope with a truthy payload; then apply the updates to
the payload object and write it back into the envelope.  A truthy
non-object payload cannot have properties assigned (a strict-mode
`TypeError`), except that with no update fields present nothing is
assigned and the envelope is rewritten unchanged. -/
def updatedMeta (jsonParse : List Char → Option JsonVal) (content : List Char)
    (u : MetaUpdates) : Except (List Char) JsonVal :=
  let first := (splitOnChar '\n' content).headD []
  if first.isEmpty then .error "Session file is empty.".data
  else
    match jsonParse first with
    | none => .error "Failed to parse session metadata.".data
    | some (.obj mf) =>
      match objGet mf typeKey, objGet mf payloadKey with
      | some (.str ty), some payload =>
        if ty = "session_meta".data then
          if truthy payload then
            match payload with
            | .obj pf => .ok (.obj (objSet mf payloadKey (.obj (applyMetaUpdates pf u))))
            | _ =>
              if u.title.isNone && u.tags.isNone then
                .ok (.obj (objSet mf payloadKey payload))
              else .error "TypeError".data
          else .error "First line is not session metadata.".data
        else .error "First line is not session metadata.".data
      | _, _ => .error "First line is not session metadata.".data
    | some _ => .error "First line is not session metadata.".data

/-- Model of `updateSessionMetadata` (src/session-store.ts:315-363): the
updated envelope replaces the first line, every other line is joined back
unchanged. -/
def updateSessionMetadata (codec : JsonCodec) (content : List Char)
    (u : MetaUpdates) : Except (List Char) (List Char) :=
  match updatedMeta codec.parse content u with
  | .error e => .error e
  | .ok m =>
    .ok (joinSep '\n' (codec.stringify m :: (splitOnChar '\n' content).tail))

/-- Model of `readFirstLine` (src/session-store.ts:55-86): the readline
interface emits no line for an empty stream and otherwise the text up to
the first newline. -/
def readFirstLine (content : List Char) : Option (List Char) :=
  if content.isEmpty then none
  else some ((splitOnChar '\n' content).headD [])

/-- The title/tags projection of `parseSessionFile`
(src/session-store.ts:189-242): `none` when the file yields no record
(empty or falsy first line, unparseable JSON, or not a `session_meta`
envelope with truthy payload); otherwise the record's `title` (via
`pickTitle`) and `tags` (via `normalizeTags` of the payload's `tags`
property). -/
def parseSessionTitleTags (jsonParse : List Char → Option JsonVal)
    (content : List Char) : Option (Option (List Char) × List (List Char)) :=
  match readFirstLine content with
  | none => none
  | some first =>
    if first.isEmpty then none
    else
      match jsonParse first with
      | none => none
      | some meta =>
        match jsGet meta typeKey, jsGet meta payloadKey with
        | some (.str ty), some payload =>
          if ty = "session_meta".data then
            if truthy payload then
              some (pickTitle payload, normalizeTags (jsGet payload tagsKey))
            else none
          else none
        | _, _ => none

/-- A concrete payload used to instantiate the round-trip and frame
theorems. -/
def testPayloadFields : List (List Char × JsonVal) :=
  [(titleKey, .str "old".data), (nameKey, .str "old".data),
   (tagsKey, .arr [.str "x".data])]

/-- A concrete `session_meta` envelope wrapping `testPayloadFields`. -/
def testMetaFields : List (List Char × JsonVal) :=
  [(typeKey, .str "session_meta".data), (payloadKey, .obj testPayloadFields)]

/-- Concrete updates: a title needing trimming and a tag list with a
duplicate (case-insensitively) and an empty entry. -/
def testUpdates : MetaUpdates :=
  ⟨some " New ".data, some ["a".data, "A".data, "".data]⟩

/-- The envelope produced by applying `testUpdates`. -/
def testNewMeta : JsonVal :=
  .obj (objSet testMetaFields payloadKey
    (.obj (applyMetaUpdates testPayloadFields testUpdates)))

/-- A concrete JSON codec whose behaviour is pinned on the two strings the
tests exercise: `"J"` parses to the original envelope, `"M"` parses to the
updated one, and serialization always yields `"M"`. -/
def testCodec : JsonCodec :=
  { parse := fun s =>
      if s = "J".data then some (.obj testMetaFields)
      else if s = "M".data then some testNewMeta
      else none,
    stringify := fun _ => "M".data }

/-! Archive state transition (src/session-store.ts:365-437).  The file
system is modelled as a map from paths to file data; directories are not
modelled (`fs.mkdir` with `recursive: true` cannot fail and affects no
observable state here), and `path.join` is forward-slash concatenation. -/

structure CodexPaths where
  codexDir : List Char
  sessionsDir : List Char
  archivedDir : List Char
deriving DecidableEq

structure FSFile where
  content : List Char
  mtime : Int
deriving DecidableEq

structure FSState where
  files : List (List Char × FSFile)
deriving DecidableEq

def fsLookup : List (List Char × FSFile) → List Char → Option FSFile
  | [], _ => none
  | f :: rest, p => if f.1 = p then some f.2 else fsLookup rest p

/-- Whether `fs.access(p)` succeeds. -/
def FSState.hasFile (fs : FSState) (p : List Char) : Bool :=
  (fsLookup fs.files p).isSome

/-- The `mtime` of `fs.stat(p)`; `none` models the `ENOENT` rejection. -/
def FSState.statMtime (fs : FSState) (p : List Char) : Option Int :=
  (fsLookup fs.files p).map (·.mtime)

/-- Model of `moveFile` (src/session-store.ts:365-376): the net effect of
`fs.rename`, or of the copy-then-delete fallback on `EXDEV`, is the same —
the source entry is re-keyed to the destination. -/
def moveFile (fs : FSState) (source destination : List Char) : FSState :=
  match fsLookup fs.files source with
  | none => fs
  | some f =>
    ⟨fs.files.filter
        (fun g => !decide (g.1 = source) && !decide (g.1 = destination)) ++
      [(destination, f)]⟩

/-- Model of `path.join(a, b)`. -/
def joinPath (a b : List Char) : List Char := a ++ '/' :: b

/-- Model of `formatDateLabel` (src/session-store.ts:139-144): `undefined`
for a missing or invalid date, else the first ten characters of the ISO
string, produced by the `isoLabel` oracle. -/
def formatDateLabel (isoLabel : Int → List Char) :
    Option JsDate → Option (List Char)
  | none => none
  | some d =>
    match d.time with
    | none => none
    | some t => some (isoLabel t)

/-- Model of `resolveActivePath` (src/session-store.ts:378-391): resolve
the session date through the same fallback chain as loading, fail when the
label is undetermined, and build the date-bucketed destination
`sessionsDir/YYYY/MM/DD/fileName`. -/
def resolveActivePath (dp : List Char → Option Int) (mk : TsMatch → JsDate)
    (isoLabel : Int → List Char) (fileName : List Char)
    (timestamp : Option (List Char)) (fallbackTime : JsDate)
    (paths : CodexPaths) : Except (List Char) (List Char) :=
  let date :=
    match parseTimestamp dp timestamp with
    | some d => d
    | none =>
      match parseDateFromFilename mk fileName with
      | some d => d
      | none => fallbackTime
  match formatDateLabel isoLabel (some date) with
  | none => .error "Unable to determine session date.".data
  | some dateLabel =>
    let parts := splitOnChar '-' dateLabel
    .ok (joinPath (joinPath (joinPath (joinPath paths.sessionsDir
      (parts.getD 0 [])) (parts.getD 1 [])) (parts.getD 2 [])) fileName)

/-- Model of `setArchiveStatus` (src/session-store.ts:393-437).  The result
pairs the returned path (or thrown error message) with the resulting file
system; error outcomes leave the file system untouched. -/
def setArchiveStatus (dp : List Char → Option Int) (mk : TsMatch → JsDate)
    (isoLabel : Int → List Char) (fs : FSState) (session : SessionRecord)
    (targetArchived : Bool) (paths : CodexPaths) :
    Except (List Char) (List Char) × FSState :=
  if session.archived = targetArchived then (.ok session.filePath, fs)
  else if targetArchived then
    let destination := joinPath paths.archivedDir session.fileName
    if fs.hasFile destination then
      (.error "Archived session already exists.".data, fs)
    else (.ok destination, moveFile fs session.filePath destination)
  else
    match fs.statMtime session.filePath with
    | none => (.error "ENOENT".data, fs)
    | some mtime =>
      match resolveActivePath dp mk isoLabel session.fileName
          session.timestamp ⟨some mtime⟩ paths with
      | .error e => (.error e, fs)
      | .ok destination =>
        if fs.hasFile destination then
          (.error "Active session already exists.".data, fs)
        else (.ok destination, moveFile fs session.filePath destination)

/-- A small concrete file system for the archive-transition witness: an
active file, an already-archived file under `B`, and a file already
occupying the restore destination under `S/2025/01/02`. -/
def testFS : FSState :=
  ⟨[("A/f.jsonl".data, ⟨"x".data, 5⟩),
    ("B/f.jsonl".data, ⟨"y".data, 6⟩),
    ("S/2025/01/02/f.jsonl".data, ⟨"z".data, 7⟩)]⟩

def testPaths : CodexPaths :=
  ⟨"C".data, "S".data, "B".data⟩

/-- An active session record living at `A/f.jsonl`. -/
def testActiveSession : SessionRecord :=
  { filePath := "A/f.jsonl".data, fileName := "f.jsonl".data,
    archived := false, tags := [], displayName := "d".data, sortKey := 0 }

/-- An archived session record living at `B/f.jsonl`. -/
def testArchivedSession : SessionRecord :=
  { filePath := "B/f.jsonl".data, fileName := "f.jsonl".data,
    archived := true, tags := [], displayName := "d".data, sortKey := 0 }

/-! Basic lemmas about the string utilities. -/

theorem dropWhile_idem (p : Char → Bool) (l : List Char) :
    (l.dropWhile p).dropWhile p = l.dropWhile p := by
  induction l with
  | nil => rfl
  | cons a l ih =>
    by_cases h : p a <;> simp [List.dropWhile_cons, h, ih]

theorem dropWhile_eq_self_of_append (p : Char → Bool) (a b : List Char)
    (h : (a ++ b).dropWhile p = a ++ b) : a.dropWhile p = a := by
  cases a with
  | nil => rfl
  | cons x xs =>
    have hx : ¬ p x := by
      intro hpx
      have hl := congrArg List.length h
      rw [List.cons_append, List.dropWhile_cons] at hl
      simp only [hpx, if_true] at hl
      have hle := (List.dropWhile_sublist (l := xs ++ b) p).length_le
      simp only [List.length_append, List.length_cons] at hl hle
      omega
    simp [List.dropWhile_cons, hx]

theorem trimStartL_trimStartL (s : List Char) :
    trimStartL (trimStartL s) = trimStartL s :=
  dropWhile_idem isWsJS s

theorem trimEndL_trimEndL (s : List Char) :
    trimEndL (trimEndL s) = trimEndL s := by
  simp [trimEndL, List.reverse_reverse, dropWhile_idem]

theorem trimStartL_trimEndL (s : List Char) (h : trimStartL s = s) :
    trimStartL (trimEndL s) = trimEndL s := by
  have hdecomp : s = (s.reverse.dropWhile isWsJS).reverse ++
      (s.reverse.takeWhile isWsJS).reverse := by
    have := List.takeWhile_append_dropWhile (p := isWsJS) (l := s.reverse)
    calc s = s.reverse.reverse := (List.reverse_reverse s).symm
    _ = (s.reverse.takeWhile isWsJS ++ s.reverse.dropWhile isWsJS).reverse := by rw [this]
    _ = _ := by rw [List.reverse_append]
  have h' : ((s.reverse.dropWhile isWsJS).reverse ++
      (s.reverse.takeWhile isWsJS).reverse).dropWhile isWsJS =
      (s.reverse.dropWhile isWsJS).reverse ++ (s.reverse.takeWhile isWsJS).reverse := by
    rw [← hdecomp]; exact h
  exact dropWhile_eq_self_of_append isWsJS _ _ h'

theorem jsTrim_idem (s : List Char) : jsTrim (jsTrim s) = jsTrim s := by
  unfold jsTrim
  rw [trimStartL_trimEndL (trimStartL s) (trimStartL_trimStartL s),
    trimEndL_trimEndL]

theorem uniqueTagsAux_subset {seen : List (List Char)} {l : List (List Char)}
    {t : List Char} (h : t ∈ uniqueTagsAux seen l) : t ∈ l := by
  induction l generalizing seen with
  | nil => simp [uniqueTagsAux] at h
  | cons a l ih =>
    by_cases ha : lowerL a ∈ seen
    · simp only [uniqueTagsAux, ha, if_true] at h
      exact List.mem_cons_of_mem _ (ih h)
    · simp only [uniqueTagsAux, ha, if_false, List.mem_cons] at h
      rcases h with h | h
      · exact h ▸ List.mem_cons_self _ _
      · exact List.mem_cons_of_mem _ (ih h)

theorem uniqueTagsAux_keys (seen : List (List Char)) (l : List (List Char)) :
    (uniqueTagsAux seen l).Pairwise (fun a b => lowerL a ≠ lowerL b) ∧
      ∀ t ∈ uniqueTagsAux seen l, lowerL t ∉ seen := by
  induction l generalizing seen with
  | nil => simp [uniqueTagsAux]
  | cons a l ih =>
    by_cases ha : lowerL a ∈ seen
    · simpa [uniqueTagsAux, ha] using ih seen
    · obtain ⟨hpw, hmem⟩ := ih (lowerL a :: seen)
      refine ⟨?_, ?_⟩
      · simp only [uniqueTagsAux, ha, if_false]
        refine List.Pairwise.cons ?_ hpw
        intro b hb
        have := hmem b hb
        simp only [List.mem_cons] at this
        intro hab
        exact this (Or.inl hab.symm)
      · intro t ht
        simp only [uniqueTagsAux, ha, if_false, List.mem_cons] at ht
        rcases ht with rfl | ht
        · exact ha
        · have := hmem t ht
          simp only [List.mem_cons] at this
          intro hts
          exact this (Or.inr hts)

theorem uniqueTagsAux_of_pairwise {seen : List (List Char)} {l : List (List Char)}
    (hpw : l.Pairwise (fun a b => lowerL a ≠ lowerL b))
    (hseen : ∀ t ∈ l, lowerL t ∉ seen) :
    uniqueTagsAux seen l = l := by
  induction l generalizing seen with
  | nil => rfl
  | cons a l ih =>
    have ha : lowerL a ∉ seen := hseen a (List.mem_cons_self _ _)
    simp only [uniqueTagsAux, ha, if_false]
    congr 1
    apply ih (List.Pairwise.of_cons hpw)
    intro t ht
    simp only [List.mem_cons]
    rintro (h | h)
    · exact (List.rel_of_pairwise_cons hpw ht) h.symm
    · exact hseen t (List.mem_cons_of_mem _ ht) h

theorem uniqueTags_idem (l : List (List Char)) :
    uniqueTags (uniqueTags l) = uniqueTags l :=
  uniqueTagsAux_of_pairwise (uniqueTagsAux_keys [] l).1 (by simp)

theorem uniqueTags_subset {l : List (List Char)} {t : List Char}
    (h : t ∈ uniqueTags l) : t ∈ l :=
  uniqueTagsAux_subset h

/-! Lemmas about `splitOnChar` and `joinSep`, used for the frame property of
`updateSessionMetadata`. -/

theorem splitOnChar_ne_nil (sep : Char) (s : List Char) :
    splitOnChar sep s ≠ [] := by
  cases s with
  | nil => simp [splitOnChar]
  | cons c cs =>
    simp only [splitOnChar]
    rcases h : splitOnChar sep cs with _ | ⟨l, ls⟩
    · simp
    · by_cases hc : c = sep <;> simp [hc]

theorem splitOnChar_sep_not_mem (sep : Char) (s : List Char) :
    ∀ l ∈ splitOnChar sep s, sep ∉ l := by
  induction s with
  | nil => intro l hl; simp only [splitOnChar, List.mem_singleton] at hl; simp [hl]
  | cons c cs ih =>
    intro l hl
    rcases h : splitOnChar sep cs with _ | ⟨x, xs⟩
    · exact absurd h (splitOnChar_ne_nil sep cs)
    · have hl' : l ∈ (if c = sep then [] :: x :: xs else (c :: x) :: xs) := by
        simpa only [splitOnChar, h] using hl
      by_cases hc : c = sep
      · rw [if_pos hc] at hl'
        rcases List.mem_cons.mp hl' with rfl | hl''
        · simp
        · exact ih l (h ▸ hl'')
      · rw [if_neg hc] at hl'
        rcases List.mem_cons.mp hl' with rfl | hl''
        · intro hmem
          rcases List.mem_cons.mp hmem with hceq | hmem'
          · exact hc hceq.symm
          · exact ih x (h ▸ List.mem_cons_self _ _) hmem'
        · exact ih l (h ▸ List.mem_cons_of_mem _ hl'')

theorem splitOnChar_of_not_mem {sep : Char} {l : List Char} (h : sep ∉ l) :
    splitOnChar sep l = [l] := by
  induction l with
  | nil => rfl
  | cons c cs ih =>
    have hc : ¬ c = sep := fun hc => h (hc ▸ List.mem_cons_self _ _)
    have hcs : sep ∉ cs := fun hmem => h (List.mem_cons_of_mem _ hmem)
    simp only [splitOnChar, ih hcs, hc, if_false]

theorem splitOnChar_append_sep {sep : Char} {l : List Char} (h : sep ∉ l)
    (s : List Char) :
    splitOnChar sep (l ++ sep :: s) = l :: splitOnChar sep s := by
  induction l with
  | nil =>
    rcases hsp : splitOnChar sep s with _ | ⟨x, xs⟩
    · exact absurd hsp (splitOnChar_ne_nil sep s)
    · simp [splitOnChar, hsp]
  | cons c cs ih =>
    have hc : ¬ c = sep := fun hc => h (hc ▸ List.mem_cons_self _ _)
    have hcs : sep ∉ cs := fun hmem => h (List.mem_cons_of_mem _ hmem)
    have hstep : splitOnChar sep ((c :: cs) ++ sep :: s)
        = match splitOnChar sep (cs ++ sep :: s) with
          | [] => [[]]
          | l :: ls => if c = sep then [] :: l :: ls else (c :: l) :: ls := rfl
    rw [hstep, ih hcs]
    simp [hc]

theorem splitOnChar_joinSep (sep : Char) (ls : List (List Char))
    (hne : ls ≠ []) (h : ∀ l ∈ ls, sep ∉ l) :
    splitOnChar sep (joinSep sep ls) = ls := by
  induction ls with
  | nil => exact absurd rfl hne
  | cons l ls ih =>
    cases ls with
    | nil => exact splitOnChar_of_not_mem (h l (List.mem_singleton_self l))
    | cons m ms =>
      have hl : sep ∉ l := h l (List.mem_cons_self _ _)
      show splitOnChar sep (l ++ sep :: joinSep sep (m :: ms)) = _
      rw [splitOnChar_append_sep hl, ih (by simp)
        (fun x hx => h x (List.mem_cons_of_mem _ hx))]

theorem objGet_objSet_self (o : List (List Char × JsonVal)) (k : List Char)
    (v : JsonVal) : objGet (objSet o k v) k = some v := by
  induction o with
  | nil => simp [objSet, objGet]
  | cons f rest ih =>
    by_cases hf : f.1 = k
    · simp [objSet, hf, objGet]
    · simpa [objSet, hf, objGet] using ih

theorem objGet_objSet_ne (o : List (List Char × JsonVal)) {k k' : List Char}
    (v : JsonVal) (hne : k' ≠ k) : objGet (objSet o k v) k' = objGet o k' := by
  have hkk : ¬ k = k' := fun h => hne h.symm
  induction o with
  | nil => simp [objSet, objGet, hkk]
  | cons f rest ih =>
    by_cases hf : f.1 = k
    · have hf' : ¬ f.1 = k' := by rw [hf]; exact hkk
      simp [objSet, hf, objGet, hf', hkk]
    · by_cases hf' : f.1 = k'
      · have h1 : objSet (f :: rest) k v = f :: objSet rest k v := by
          simp [objSet, hf]
        rw [h1]
        simp [objGet, hf']
      · simpa [objSet, hf, objGet, hf'] using ih

theorem objGet_objDelete_self (o : List (List Char × JsonVal)) (k : List Char) :
    objGet (objDelete o k) k = none := by
  induction o with
  | nil => simp [objDelete, objGet]
  | cons f rest ih =>
    by_cases hf : f.1 = k
    · simpa [objDelete, objGet, hf] using ih
    · simpa [objDelete, objGet, List.filter_cons, hf] using ih

theorem objGet_objDelete_ne (o : List (List Char × JsonVal)) {k k' : List Char}
    (hne : k' ≠ k) : objGet (objDelete o k) k' = objGet o k' := by
  have hkk : ¬ k = k' := fun h => hne h.symm
  induction o with
  | nil => simp [objDelete, objGet]
  | cons f rest ih =>
    by_cases hf : f.1 = k
    · have hf' : ¬ f.1 = k' := by rw [hf]; exact hkk
      simpa [objDelete, objGet, List.filter_cons, hf, hf', hkk] using ih
    · by_cases hf' : f.1 = k'
      · have h1 : objDelete (f :: rest) k = f :: objDelete rest k := by
          simp [objDelete, List.filter_cons, hf]
        rw [h1]
        simp [objGet, hf']
      · simpa [objDelete, objGet, List.filter_cons, hf, hf'] using ih

/-- C1 (amended).  The sort date of a parsed session file follows the exact
fallback chain: a parseable explicit timestamp field; otherwise a timestamp
embedded in the file name matching the code's pattern (literal `20` plus
two digits for the year, then 2-digit month, day, hour, minute, second,
with a `T` between date and time and dashes elsewhere); otherwise the
file's modification time; an undetermined date maps to sort key 0.  The
statement quantifies over the host oracles for `Date.parse` (`dp`) and the
`Date` constructor (`mk`). -/
theorem sortDate_resolution_chain (dp : List Char → Option Int)
    (mk : TsMatch → JsDate) (ts : Option (List Char)) (fn : List Char)
    (mt : Int) :
    (∀ s t, ts = some s → dp s = some t →
      sessionSortDate dp mk ts fn ⟨some mt⟩ = some ⟨some t⟩ ∧
      sortKeyOfDate (sessionSortDate dp mk ts fn ⟨some mt⟩) = some t) ∧
    (parseTimestamp dp ts = none → ∀ m, findTimestampMatch fn = some m →
      sessionSortDate dp mk ts fn ⟨some mt⟩ = some (mk m) ∧
      sortKeyOfDate (sessionSortDate dp mk ts fn ⟨some mt⟩) = (mk m).time) ∧
    (parseTimestamp dp ts = none → findTimestampMatch fn = none →
      sessionSortDate dp mk ts fn ⟨some mt⟩ = some ⟨some mt⟩ ∧
      sortKeyOfDate (sessionSortDate dp mk ts fn ⟨some mt⟩) = some mt) ∧
    sortKeyOfDate none = some 0 := by
  refine ⟨?_, ?_, ?_, rfl⟩
  · rintro s t rfl hdp
    simp [sessionSortDate, parseTimestamp, hdp, sortKeyOfDate]
  · intro hpt m hm
    simp [sessionSortDate, hpt, parseDateFromFilename, hm, sortKeyOfDate]
  · intro hpt hm
    simp [sessionSortDate, hpt, parseDateFromFilename, hm, sortKeyOfDate]

/-- C1 (counterexample).  The claim describes the file-name pattern as an
unconstrained 4-digit year, but the code's regex `(20\d{2})` only matches
years 2000-2099.  For a file name embedding the year 1999 the claimed
chain uses the embedded timestamp while the code falls through to the
file's modification time. -/
theorem sortDate_resolution_counterexample :
    sessionSortDate (fun _ => none) (fun _ => ⟨some 99⟩) none
        "rollout-1999-01-02T03-04-05-x.jsonl".data ⟨some 5⟩ ≠
      specSessionSortDate (fun _ => none) (fun _ => ⟨some 99⟩) none
        "rollout-1999-01-02T03-04-05-x.jsonl".data ⟨some 5⟩ ∧
    sessionSortDate (fun _ => none) (fun _ => ⟨some 99⟩) none
        "rollout-1999-01-02T03-04-05-x.jsonl".data ⟨some 5⟩ = some ⟨some 5⟩ ∧
    specSessionSortDate (fun _ => none) (fun _ => ⟨some 99⟩) none
        "rollout-1999-01-02T03-04-05-x.jsonl".data ⟨some 5⟩ = some ⟨some 99⟩ := by
  refine ⟨?_, by decide, by decide⟩
  decide

/-- C1 (witness).  The amended chain instantiated at a concrete file name
with a parseable pattern, an unparseable timestamp field, and concrete
oracles. -/
theorem sortDate_resolution_chain_witness :
    parseTimestamp (fun _ => none) (some "bad".data) = none ∧
    findTimestampMatch "rollout-2025-01-02T03-04-05-x.jsonl".data =
      some ⟨"2025".data, "01".data, "02".data, "03".data, "04".data, "05".data⟩ ∧
    sessionSortDate (fun _ => none) (fun _ => ⟨some 42⟩) (some "bad".data)
      "rollout-2025-01-02T03-04-05-x.jsonl".data ⟨some 7⟩ = some ⟨some 42⟩ := by
  refine ⟨by decide, by decide, ?_⟩
  have h := (sortDate_resolution_chain (fun _ => none) (fun _ => ⟨some 42⟩)
    (some "bad".data) "rollout-2025-01-02T03-04-05-x.jsonl".data 7).2.1
    (by decide)
    ⟨"2025".data, "01".data, "02".data, "03".data, "04".data, "05".data⟩
    (by decide)
  exact h.1

/-- C9.  `filterSessions` returns a subsequence of its input: every output
record occurs in the input, in the same relative order, unaltered. -/
theorem filterSessions_sublist (sessions : List SessionRecord)
    (query : List Char) (af : ArchiveFilter) :
    List.Sublist (filterSessions sessions query af) sessions :=
  List.filter_sublist sessions

/-- C7.  Applying `filterSessions` then `sortSessionsByDate` a second time
with identical parameters to the result of a first application returns the
same list. -/
theorem filter_sort_idempotent (sessions : List SessionRecord)
    (query : List Char) (af : ArchiveFilter) (order : SortOrder) :
    sortSessionsByDate
        (filterSessions (sortSessionsByDate (filterSessions sessions query af) order)
          query af) order =
      sortSessionsByDate (filterSessions sessions query af) order := by
  haveI hta : IsTotal SessionRecord sortLeAsc := ⟨fun a b => Int.le_total _ _⟩
  haveI htra : IsTrans SessionRecord sortLeAsc := ⟨fun a b c => Int.le_trans⟩
  haveI htd : IsTotal SessionRecord sortLeDesc := ⟨fun a b => Int.le_total _ _⟩
  haveI htrd : IsTrans SessionRecord sortLeDesc := ⟨fun a b c h1 h2 => Int.le_trans h2 h1⟩
  cases order with
  | asc =>
    have hfilter : filterSessions
        (sortSessionsByDate (filterSessions sessions query af) .asc) query af =
        sortSessionsByDate (filterSessions sessions query af) .asc := by
      apply List.filter_eq_self.mpr
      intro a ha
      have : a ∈ filterSessions sessions query af := by
        simpa [sortSessionsByDate] using ha
      exact List.of_mem_filter this
    rw [hfilter]
    exact List.Sorted.insertionSort_eq (List.sorted_insertionSort _ _)
  | desc =>
    have hfilter : filterSessions
        (sortSessionsByDate (filterSessions sessions query af) .desc) query af =
        sortSessionsByDate (filterSessions sessions query af) .desc := by
      apply List.filter_eq_self.mpr
      intro a ha
      have : a ∈ filterSessions sessions query af := by
        simpa [sortSessionsByDate] using ha
      exact List.of_mem_filter this
    rw [hfilter]
    exact List.Sorted.insertionSort_eq (List.sorted_insertionSort _ _)

/-- C4.  `getTagSuggestions` returns at most `limit` candidates, each drawn
from the match list; the match list contains exactly the vocabulary tags
that are not already used earlier in the input (the fragment itself never
disqualifies a tag) and whose lower-cased form starts with the lower-cased
fragment; the result is sorted case-insensitively; and on vocabulary
`["beta","bravo","alpha"]` with input `"alpha, b"` the result is exactly
`["beta","bravo"]`. -/
theorem getTagSuggestions_spec (input : List Char)
    (allTags : List (List Char)) (limit : Nat) :
    (getTagSuggestions input allTags limit).length ≤ limit ∧
    (∀ t, t ∈ getTagSuggestions input allTags limit →
      t ∈ tagMatches input allTags) ∧
    (∀ t, t ∈ tagMatches input allTags ↔
      t ∈ allTags ∧ lowerL t ∉ usedTagKeys input ∧
        (¬ (lowerL (getTagFragment input).2).isEmpty →
          startsWithL (lowerL (getTagFragment input).2) (lowerL t))) ∧
    (getTagSuggestions input allTags limit).Pairwise tagLe ∧
    getTagSuggestions "alpha, b".data
      ["beta".data, "bravo".data, "alpha".data] 5 =
      ["beta".data, "bravo".data] := by
  haveI : IsTotal (List Char) tagLe := ⟨fun a b => le_total _ _⟩
  haveI : IsTrans (List Char) tagLe := ⟨fun a b c => le_trans⟩
  refine ⟨?_, ?_, ?_, ?_, by decide⟩
  · by_cases h : allTags.isEmpty
    · simp [getTagSuggestions, h]
    · simp only [getTagSuggestions, h, Bool.false_eq_true, if_false]
      exact List.length_take_le _ _
  · intro t ht
    by_cases h : allTags.isEmpty
    · simp [getTagSuggestions, h] at ht
    · simp only [getTagSuggestions, h, Bool.false_eq_true, if_false] at ht
      have := List.mem_of_mem_take ht
      simpa [List.mem_insertionSort] using this
  · intro t
    constructor
    · intro ht
      have hmem := List.mem_of_mem_filter ht
      have hp := List.of_mem_filter ht
      simp at hp
      refine ⟨hmem, hp.1, fun hfrag => ?_⟩
      rcases hp.2 with hnil | hsw
      · exact absurd (by simp [hnil]) hfrag
      · exact hsw
    · rintro ⟨hmem, hused, hfrag⟩
      refine List.mem_filter.mpr ⟨hmem, ?_⟩
      simp
      refine ⟨hused, ?_⟩
      by_cases hfe : (lowerL (getTagFragment input).2).isEmpty
      · exact Or.inl (by simpa using hfe)
      · exact Or.inr (hfrag (by simp [hfe]))
  · by_cases h : allTags.isEmpty
    · simp [getTagSuggestions, h]
    · simp only [getTagSuggestions, h, Bool.false_eq_true, if_false]
      exact List.Pairwise.sublist (List.take_sublist _ _)
        (List.sorted_insertionSort tagLe _)

/-- C4 (witness).  The characterization and cap instantiated concretely:
`"bravo"` is a match for input `"alpha, b"`, `"alpha"` is not, and the
suggestion list caps at the limit. -/
theorem getTagSuggestions_spec_witness :
    "bravo".data ∈ tagMatches "alpha, b".data
      ["beta".data, "bravo".data, "alpha".data] ∧
    "alpha".data ∉ tagMatches "alpha, b".data
      ["beta".data, "bravo".data, "alpha".data] ∧
    (getTagSuggestions "alpha, b".data
      ["beta".data, "bravo".data, "alpha".data] 1).length ≤ 1 := by
  refine ⟨?_, ?_, ?_⟩
  · exact ((getTagSuggestions_spec "alpha, b".data
      ["beta".data, "bravo".data, "alpha".data] 5).2.2.1 "bravo".data).mpr
      ⟨by decide, by decide, fun _ => by decide⟩
  · intro h
    have hchar := ((getTagSuggestions_spec "alpha, b".data
      ["beta".data, "bravo".data, "alpha".data] 5).2.2.1 "alpha".data).mp h
    exact hchar.2.1 (by decide)
  · exact (getTagSuggestions_spec "alpha, b".data
      ["beta".data, "bravo".data, "alpha".data] 1).1

/-- C5.  For a focused index within range and a positive viewport, the
window start is the focused index minus half the viewport, clamped to
`[0, total - viewport]`; the focused row lies inside the returned window,
which never extends past the list.  In particular (see the witness) a list
of 100 with viewport 10 and focus 95 yields window start 90. -/
theorem getListWindow_centers (L v i : Int) (hv : 1 ≤ v) (hi0 : 0 ≤ i)
    (hiL : i < L) :
    0 ≤ (getListWindow L v i).1 ∧
    (getListWindow L v i).1 ≤ i ∧
    i < (getListWindow L v i).2 ∧
    (getListWindow L v i).2 ≤ L ∧
    (v < L →
      (getListWindow L v i).1 = max 0 (min (i - v / 2) (L - v)) ∧
      (getListWindow L v i).2 = (getListWindow L v i).1 + v) ∧
    (L ≤ v → getListWindow L v i = (0, L)) := by
  unfold getListWindow
  by_cases hLv : L ≤ v
  · simp only [if_pos hLv]
    refine ⟨le_refl 0, hi0, hiL, le_refl L, fun hvL => absurd hvL (by omega),
      fun _ => by trivial⟩
  · simp only [if_neg hLv]
    have hhalf0 : 0 ≤ v / 2 := by omega
    have hhalfv : v / 2 < v := by omega
    by_cases hs0 : i - v / 2 < 0
    · simp only [if_pos hs0]
      by_cases hover : 0 + v > L
      · omega
      · simp only [if_neg hover]
        refine ⟨le_refl 0, hi0, ?_, ?_, fun _ => ⟨by omega, by omega⟩,
          fun hvL => absurd hvL hLv⟩ <;> omega
    · simp only [if_neg hs0]
      by_cases hover : i - v / 2 + v > L
      · simp only [if_pos hover]
        refine ⟨by omega, by omega, by omega, by omega,
          fun _ => ⟨by omega, by omega⟩, fun hvL => absurd hvL hLv⟩
      · simp only [if_neg hover]
        refine ⟨by omega, by omega, by omega, by omega,
          fun _ => ⟨by omega, by omega⟩, fun hvL => absurd hvL hLv⟩

/-- C5 (witness).  The claim's example: list of 100, viewport 10, focus at
index 95; the window start is 90 and the focused row is inside. -/
theorem getListWindow_centers_witness :
    getListWindow 100 10 95 = (90, 100) ∧
    (getListWindow 100 10 95).1 ≤ 95 ∧ 95 < (getListWindow 100 10 95).2 := by
  have h := getListWindow_centers 100 10 95 (by decide) (by decide) (by decide)
  exact ⟨by decide, h.2.1, h.2.2.1⟩

/-- C10.  `truncate` never yields more than `maxChars` characters; when the
input exceeds the budget the result ends with `"..."` if the budget is
greater than 3, and is a plain prefix with no ellipsis otherwise. -/
theorem preview_truncate_budget (text : List Char) (maxChars : Nat) :
    (Preview.truncate text maxChars).length ≤ maxChars ∧
    (maxChars < text.length → 3 < maxChars →
      List.IsSuffix "...".data (Preview.truncate text maxChars)) ∧
    (maxChars < text.length → maxChars ≤ 3 →
      Preview.truncate text maxChars = text.take maxChars) := by
  refine ⟨?_, ?_, ?_⟩
  · unfold Preview.truncate
    by_cases hle : text.length ≤ maxChars
    · simp [hle]
    · by_cases h3 : maxChars ≤ 3
      · simp [hle, h3, List.length_take]
      · simp only [hle, h3, if_false, List.length_append, List.length_take,
          List.length_cons, List.length_nil]
        omega
  · intro hlt h3
    unfold Preview.truncate
    have hle : ¬ text.length ≤ maxChars := by omega
    have h3' : ¬ maxChars ≤ 3 := by omega
    simp only [hle, h3', if_false]
    exact ⟨text.take (maxChars - 3), rfl⟩
  · intro hlt h3
    unfold Preview.truncate
    have hle : ¬ text.length ≤ maxChars := by omega
    simp [hle, h3]

/-- C10 (witness).  The budget bound, the ellipsis case (budget 5) and the
no-ellipsis case (budget 2) on the concrete string `"abcdefgh"`. -/
theorem preview_truncate_budget_witness :
    (Preview.truncate "abcdefgh".data 5).length ≤ 5 ∧
    List.IsSuffix "...".data (Preview.truncate "abcdefgh".data 5) ∧
    Preview.truncate "abcdefgh".data 2 = "abcdefgh".data.take 2 :=
  ⟨(preview_truncate_budget "abcdefgh".data 5).1,
   (preview_truncate_budget "abcdefgh".data 5).2.1 (by decide) (by decide),
   (preview_truncate_budget "abcdefgh".data 2).2.2 (by decide) (by decide)⟩

theorem hardSplitFuel_bounds (fuel width : Nat) (hw : 1 ≤ width) :
    ∀ word : List Char, word.length ≤ fuel →
      (Tui.hardSplitFuel fuel width word).2.length ≤ width ∧
      ∀ l ∈ (Tui.hardSplitFuel fuel width word).1, l.length ≤ width := by
  induction fuel with
  | zero =>
    intro word hlen
    have h0 : word.length = 0 := Nat.le_zero.mp hlen
    constructor
    · show (Tui.hardSplitFuel 0 width word).2.length ≤ width
      simp only [Tui.hardSplitFuel]
      omega
    · intro l hl
      simp [Tui.hardSplitFuel] at hl
  | succ fuel ih =>
    intro word hlen
    by_cases hstop : word.length ≤ width ∨ width = 0
    · simp only [Tui.hardSplitFuel, hstop, if_true]
      constructor
      · rcases hstop with h | h
        · exact h
        · omega
      · intro l hl; simp at hl
    · simp only [Tui.hardSplitFuel, hstop, if_false]
      push_neg at hstop
      obtain ⟨hgt, _⟩ := hstop
      have hdrop : (word.drop width).length ≤ fuel := by
        simp only [List.length_drop]
        omega
      obtain ⟨ih2, ih1⟩ := ih (word.drop width) hdrop
      refine ⟨ih2, ?_⟩
      intro l hl
      rcases List.mem_cons.mp hl with rfl | hl
      · simp only [List.length_take]
        omega
      · exact ih1 l hl

theorem hardSplit_bounds (width : Nat) (hw : 1 ≤ width) (word : List Char) :
    (Tui.hardSplit width word).2.length ≤ width ∧
    ∀ l ∈ (Tui.hardSplit width word).1, l.length ≤ width :=
  hardSplitFuel_bounds word.length width hw word (le_refl _)

theorem foldl_wrapStep_filter (width : Nat) (ws : List (List Char)) :
    ∀ st, ws.foldl (Tui.wrapStep width) st =
      (ws.filter (fun w => !w.isEmpty)).foldl (Tui.wrapStep width) st := by
  induction ws with
  | nil => intro st; rfl
  | cons w ws ih =>
    intro st
    by_cases hw : w.isEmpty
    · have hskip : Tui.wrapStep width st w = st := by
        simp [Tui.wrapStep, hw]
      simp only [List.foldl_cons, List.filter_cons, hw, hskip]
      exact ih st
    · simp only [List.foldl_cons, List.filter_cons]
      have hb : (!w.isEmpty) = true := by simp [hw]
      simp only [hb, if_true, List.foldl_cons]
      exact ih _

theorem foldl_wrapStep_spec (width : Nat) (ws : List (List Char))
    (hws : ∀ w ∈ ws, ¬ w.isEmpty) :
    ∀ lines cur,
      Tui.flushCurrent (ws.foldl (Tui.wrapStep width) (lines, cur)) =
        lines ++ specGreedy width ws cur := by
  induction ws with
  | nil =>
    intro lines cur
    by_cases hcur : cur.isEmpty <;>
      simp [Tui.flushCurrent, specGreedy, hcur]
  | cons w ws ih =>
    intro lines cur
    have hw : ¬ w.isEmpty := hws w (List.mem_cons_self _ _)
    have hws' : ∀ x ∈ ws, ¬ x.isEmpty :=
      fun x hx => hws x (List.mem_cons_of_mem _ hx)
    simp only [List.foldl_cons]
    by_cases hlen : width < w.length
    · have hstep : Tui.wrapStep width (lines, cur) w =
          ((if cur.isEmpty then lines else lines ++ [cur]) ++
            (Tui.hardSplit width w).1, (Tui.hardSplit width w).2) := by
        simp [Tui.wrapStep, hw, hlen]
      rw [hstep, ih hws']
      by_cases hcur : cur.isEmpty <;>
        simp [specGreedy, hlen, hcur, List.append_assoc]
    · by_cases hcur : cur.isEmpty
      · have hstep : Tui.wrapStep width (lines, cur) w = (lines, w) := by
          simp [Tui.wrapStep, hw, hlen, hcur]
        rw [hstep, ih hws']
        simp [specGreedy, hlen, hcur]
      · by_cases hfit : cur.length + 1 + w.length ≤ width
        · have hstep : Tui.wrapStep width (lines, cur) w =
              (lines, cur ++ ' ' :: w) := by
            simp [Tui.wrapStep, hw, hlen, hcur, hfit]
          rw [hstep, ih hws']
          simp [specGreedy, hlen, hcur, hfit]
        · have hstep : Tui.wrapStep width (lines, cur) w =
              (lines ++ [cur], w) := by
            simp [Tui.wrapStep, hw, hlen, hcur, hfit]
          rw [hstep, ih hws']
          simp [specGreedy, hlen, hcur, hfit, List.append_assoc]

theorem specGreedy_line_bounds (width : Nat) (hw : 1 ≤ width)
    (ws : List (List Char)) :
    ∀ cur, cur.length ≤ width →
      ∀ l ∈ specGreedy width ws cur, l.length ≤ width := by
  induction ws with
  | nil =>
    intro cur hcur l hl
    by_cases hc : cur.isEmpty
    · simp [specGreedy, hc] at hl
    · simp only [specGreedy, hc, Bool.false_eq_true, if_false,
        List.mem_singleton] at hl
      exact hl ▸ hcur
  | cons w ws ih =>
    intro cur hcur l hl
    by_cases hlen : width < w.length
    · simp only [specGreedy, hlen, if_true, List.mem_append] at hl
      rcases hl with (hl | hl) | hl
      · by_cases hc : cur.isEmpty
        · simp [hc] at hl
        · simp only [hc, Bool.false_eq_true, if_false,
            List.mem_singleton] at hl
          exact hl ▸ hcur
      · exact (hardSplit_bounds width hw w).2 l hl
      · exact ih (Tui.hardSplit width w).2 (hardSplit_bounds width hw w).1 l hl
    · by_cases hc : cur.isEmpty
      · simp only [specGreedy, hlen, if_false, hc, if_true] at hl
        exact ih w (by omega) l hl
      · by_cases hfit : cur.length + 1 + w.length ≤ width
        · simp only [specGreedy, hlen, if_false, hc, Bool.false_eq_true,
            hfit, if_true] at hl
          refine ih (cur ++ ' ' :: w) ?_ l hl
          simp only [List.length_append, List.length_cons]
          omega
        · simp only [specGreedy, hlen, if_false, hc, Bool.false_eq_true,
            hfit, List.mem_cons] at hl
          rcases hl with rfl | hl
          · exact hcur
          · exact ih w (by omega) l hl

theorem truncate_of_le {l : List Char} {width : Nat} (h : l.length ≤ width) :
    Tui.truncate l width = l := by
  simp [Tui.truncate, h]

/-- C8 (amended).  For every text and every positive column width,
`wrapText` agrees with the spec-level greedy word wrap (greedy filling,
hard-splitting of over-wide words), yields at least one (possibly empty)
line, and every produced line fits the width. -/
theorem wrapText_spec (text : List Char) (width : Nat) (hw : 1 ≤ width) :
    Tui.wrapText text width = specGreedyWrap text width ∧
    1 ≤ (Tui.wrapText text width).length ∧
    ∀ l ∈ Tui.wrapText text width, l.length ≤ width := by
  have hne : ¬ width = 0 := by omega
  have hfoldl := foldl_wrapStep_filter width (splitOnChar ' ' text) ([], [])
  have hspec := foldl_wrapStep_spec width
    ((splitOnChar ' ' text).filter (fun w => !w.isEmpty))
    (by intro w hwmem; have := List.of_mem_filter hwmem; simpa using this)
    [] []
  have hlines : Tui.flushCurrent
      ((splitOnChar ' ' text).foldl (Tui.wrapStep width) ([], [])) =
      specGreedy width ((splitOnChar ' ' text).filter (fun w => !w.isEmpty)) [] := by
    rw [hfoldl, hspec]
    simp
  have hbounds : ∀ l ∈ specGreedy width
      ((splitOnChar ' ' text).filter (fun w => !w.isEmpty)) [],
      l.length ≤ width :=
    specGreedy_line_bounds width hw _ [] (by simp)
  have hmapid : (specGreedy width
      ((splitOnChar ' ' text).filter (fun w => !w.isEmpty)) []).map
      (fun l => Tui.truncate l width) =
      specGreedy width ((splitOnChar ' ' text).filter (fun w => !w.isEmpty)) [] := by
    have h1 : ∀ l ∈ specGreedy width
        ((splitOnChar ' ' text).filter (fun w => !w.isEmpty)) [],
        (fun l => Tui.truncate l width) l = id l :=
      fun l hl => truncate_of_le (hbounds l hl)
    rw [List.map_congr_left h1, List.map_id]
  have heq : Tui.wrapText text width = specGreedyWrap text width := by
    unfold Tui.wrapText specGreedyWrap
    simp only [hne, if_false, hlines]
    by_cases hemp : (specGreedy width
        ((splitOnChar ' ' text).filter (fun w => !w.isEmpty)) []).isEmpty
    · simp only [hemp, if_true, List.map_cons, List.map_nil]
      rw [truncate_of_le (by simp)]
    · simp only [hemp, Bool.false_eq_true, if_false]
      exact hmapid
  refine ⟨heq, ?_, ?_⟩
  · rw [heq]
    unfold specGreedyWrap
    rcases hsg : specGreedy width
        ((splitOnChar ' ' text).filter (fun w => !w.isEmpty)) [] with _ | ⟨x, xs⟩
    · simp
    · simp
  · intro l hl
    rw [heq] at hl
    unfold specGreedyWrap at hl
    rcases hsg : specGreedy width
        ((splitOnChar ' ' text).filter (fun w => !w.isEmpty)) [] with _ | ⟨x, xs⟩
    · rw [hsg] at hl
      simp only [List.isEmpty_nil, if_true, List.mem_singleton] at hl
      subst hl
      simp only [List.length_nil]
      omega
    · rw [hsg] at hl
      simp only [List.isEmpty_cons, Bool.false_eq_true, if_false] at hl
      exact hbounds l (hsg ▸ hl)

/-- C8 (counterexample).  The claim asserts the wrap always yields at least
one line for every column width, but for width `0` (the `width <= 0`
guard) the code returns an empty line list. -/
theorem wrapText_zero_counterexample :
    Tui.wrapText "hello".data 0 = [] ∧
    (Tui.wrapText "hello".data 0).length = 0 := by
  constructor <;> rfl

/-- C8 (witness).  The amended statement instantiated at width 5 on
`"hello world"`, and evaluation of a hard-split case at width 3. -/
theorem wrapText_spec_witness :
    Tui.wrapText "hello world".data 5 = specGreedyWrap "hello world".data 5 ∧
    Tui.wrapText "abcdefgh".data 3 = ["abc".data, "def".data, "gh".data] ∧
    1 ≤ (Tui.wrapText "abcdefgh".data 3).length :=
  ⟨(wrapText_spec "hello world".data 5 (by decide)).1, by decide,
   (wrapText_spec "abcdefgh".data 3 (by decide)).2.1⟩

theorem filterMap_jsonStr_map_str (l : List (List Char)) :
    (l.map JsonVal.str).filterMap jsonStr = l := by
  induction l with
  | nil => rfl
  | cons x xs ih => simp [jsonStr, List.filterMap_cons, ih]

theorem cleanedTags_fixed (ts : List (List Char)) :
    ((uniqueTags ((ts.map jsTrim).filter (fun t => !t.isEmpty))).map jsTrim).filter
        (fun t => !t.isEmpty) =
      uniqueTags ((ts.map jsTrim).filter (fun t => !t.isEmpty)) := by
  have hmem : ∀ x ∈ uniqueTags ((ts.map jsTrim).filter (fun t => !t.isEmpty)),
      jsTrim x = x ∧ (!x.isEmpty) = true := by
    intro x hx
    have hx' := uniqueTags_subset hx
    have hxf := List.of_mem_filter hx'
    have hxm := List.mem_of_mem_filter hx'
    obtain ⟨y, _, rfl⟩ := List.mem_map.mp hxm
    exact ⟨jsTrim_idem y, hxf⟩
  have hmap : (uniqueTags ((ts.map jsTrim).filter (fun t => !t.isEmpty))).map jsTrim =
      uniqueTags ((ts.map jsTrim).filter (fun t => !t.isEmpty)) := by
    have := List.map_congr_left (g := fun x => x) (fun x hx => (hmem x hx).1)
    rw [this, List.map_id']
  rw [hmap]
  exact List.filter_eq_self.mpr (fun x hx => (hmem x hx).2)

theorem normalizeTags_cleaned (ts : List (List Char)) :
    normalizeTags (some (.arr ((uniqueTags
        ((ts.map jsTrim).filter (fun t => !t.isEmpty))).map .str))) =
      uniqueTags ((ts.map jsTrim).filter (fun t => !t.isEmpty)) := by
  have hstep : ∀ xs : List JsonVal, normalizeTags (some (.arr xs)) =
      uniqueTags (((xs.filterMap jsonStr).map jsTrim).filter (fun t => !t.isEmpty)) :=
    fun xs => rfl
  rw [hstep, filterMap_jsonStr_map_str, cleanedTags_fixed]
  exact uniqueTags_idem _

theorem objGet_applyTagsUpdate_ne (p : List (List Char × JsonVal))
    (uT : Option (List (List Char))) {k : List Char} (hk : k ≠ tagsKey) :
    objGet (applyTagsUpdate p uT) k = objGet p k := by
  cases uT with
  | none => rfl
  | some ts =>
    simp only [applyTagsUpdate]
    by_cases h : (uniqueTags ((ts.map jsTrim).filter (fun t => !t.isEmpty))).isEmpty
    · simp only [h, if_true]
      exact objGet_objDelete_ne p hk
    · simp only [h, Bool.false_eq_true, if_false]
      exact objGet_objSet_ne p _ hk

theorem objGet_applyTagsUpdate_some (p : List (List Char × JsonVal))
    (ts : List (List Char)) :
    ((uniqueTags ((ts.map jsTrim).filter (fun t => !t.isEmpty))).isEmpty = true →
      objGet (applyTagsUpdate p (some ts)) tagsKey = none) ∧
    ((uniqueTags ((ts.map jsTrim).filter (fun t => !t.isEmpty))).isEmpty = false →
      objGet (applyTagsUpdate p (some ts)) tagsKey =
        some (.arr ((uniqueTags ((ts.map jsTrim).filter (fun t => !t.isEmpty))).map .str))) := by
  constructor
  · intro h
    simp only [applyTagsUpdate, h, if_true]
    exact objGet_objDelete_self _ _
  · intro h
    simp only [applyTagsUpdate, h, Bool.false_eq_true, if_false]
    exact objGet_objSet_self _ _ _

theorem objGet_applyTitleUpdate_set (p : List (List Char × JsonVal))
    (t : List Char) (hne : (jsTrim t).isEmpty = false) :
    objGet (applyTitleUpdate p (some t)) titleKey = some (.str (jsTrim t)) ∧
    objGet (applyTitleUpdate p (some t)) nameKey = some (.str (jsTrim t)) := by
  simp only [applyTitleUpdate, hne, Bool.false_eq_true, if_false]
  constructor
  · rw [objGet_objSet_ne _ _ (by decide : titleKey ≠ nameKey)]
    exact objGet_objSet_self _ _ _
  · exact objGet_objSet_self _ _ _

theorem objGet_applyTitleUpdate_del (p : List (List Char × JsonVal))
    (t : List Char) (hemp : (jsTrim t).isEmpty = true) :
    objGet (applyTitleUpdate p (some t)) titleKey = none ∧
    objGet (applyTitleUpdate p (some t)) nameKey = none := by
  simp only [applyTitleUpdate, hemp, if_true]
  constructor
  · rw [objGet_objDelete_ne _ (by decide : titleKey ≠ nameKey)]
    exact objGet_objDelete_self _ _
  · exact objGet_objDelete_self _ _

theorem pickTitle_of_title (pf' : List (List Char × JsonVal)) (c : List Char)
    (hget : objGet pf' titleKey = some (.str c)) (hc : jsTrim c = c)
    (hne : c.isEmpty = false) :
    pickTitle (.obj pf') = some c := by
  have h1 : jsGet (.obj pf') titleKey = some (.str c) := hget
  simp only [pickTitle, h1, hc, hne, Bool.false_eq_true, if_false]

theorem pickTitle_of_none (pf' : List (List Char × JsonVal))
    (ht : objGet pf' titleKey = none) (hn : objGet pf' nameKey = none) :
    pickTitle (.obj pf') = none := by
  have h1 : jsGet (.obj pf') titleKey = none := ht
  have h2 : jsGet (.obj pf') nameKey = none := hn
  simp [pickTitle, h1, h2]

theorem joinSep_cons_ne_nil (sep : Char) {s : List Char}
    (ls : List (List Char)) (h : s ≠ []) : joinSep sep (s :: ls) ≠ [] := by
  cases ls with
  | nil => simpa [joinSep] using h
  | cons m ms => simp [joinSep]

/-- C2.  For every session file whose first line is a valid metadata
envelope (an object with `type: "session_meta"` and an object payload),
`updateSessionMetadata` followed by re-parsing reflects the written title
and tags exactly: a title non-empty after trimming sets both the `title`
and the legacy `name` field to the trimmed value (and the re-parsed record
title is that value); an empty or whitespace-only title removes both fields
(and the re-parsed title is absent); a tag list that is empty after
trimming, dropping empties, and case-insensitive deduplication removes the
`tags` field entirely, while a non-empty cleaned list is stored and
re-parses to exactly itself.  The JSON codec oracles are assumed to
round-trip on the written envelope and to emit a non-empty single-line
serialization. -/
theorem updateSessionMetadata_roundtrip (codec : JsonCodec)
    (content : List Char) (u : MetaUpdates)
    (mf pf : List (List Char × JsonVal))
    (hfirst : ((splitOnChar '\n' content).headD []).isEmpty = false)
    (hparse : codec.parse ((splitOnChar '\n' content).headD []) =
      some (.obj mf))
    (hty : objGet mf typeKey = some (.str "session_meta".data))
    (hpl : objGet mf payloadKey = some (.obj pf))
    (hrt : codec.parse (codec.stringify (.obj (objSet mf payloadKey
        (.obj (applyMetaUpdates pf u))))) =
      some (.obj (objSet mf payloadKey (.obj (applyMetaUpdates pf u)))))
    (hsne : (codec.stringify (.obj (objSet mf payloadKey
        (.obj (applyMetaUpdates pf u))))).isEmpty = false)
    (hnl : '\n' ∉ codec.stringify (.obj (objSet mf payloadKey
        (.obj (applyMetaUpdates pf u))))) :
    updateSessionMetadata codec content u = .ok (joinSep '\n'
      (codec.stringify (.obj (objSet mf payloadKey
        (.obj (applyMetaUpdates pf u)))) :: (splitOnChar '\n' content).tail)) ∧
    parseSessionTitleTags codec.parse (joinSep '\n'
      (codec.stringify (.obj (objSet mf payloadKey
        (.obj (applyMetaUpdates pf u)))) :: (splitOnChar '\n' content).tail)) =
      some (pickTitle (.obj (applyMetaUpdates pf u)),
        normalizeTags (objGet (applyMetaUpdates pf u) tagsKey)) ∧
    (∀ t, u.title = some t → (jsTrim t).isEmpty = false →
      objGet (applyMetaUpdates pf u) titleKey = some (.str (jsTrim t)) ∧
      objGet (applyMetaUpdates pf u) nameKey = some (.str (jsTrim t)) ∧
      pickTitle (.obj (applyMetaUpdates pf u)) = some (jsTrim t)) ∧
    (∀ t, u.title = some t → (jsTrim t).isEmpty = true →
      objGet (applyMetaUpdates pf u) titleKey = none ∧
      objGet (applyMetaUpdates pf u) nameKey = none ∧
      pickTitle (.obj (applyMetaUpdates pf u)) = none) ∧
    (∀ ts, u.tags = some ts →
      ((uniqueTags ((ts.map jsTrim).filter (fun x => !x.isEmpty))).isEmpty = true →
        objGet (applyMetaUpdates pf u) tagsKey = none ∧
        normalizeTags (objGet (applyMetaUpdates pf u) tagsKey) = []) ∧
      ((uniqueTags ((ts.map jsTrim).filter (fun x => !x.isEmpty))).isEmpty = false →
        objGet (applyMetaUpdates pf u) tagsKey =
          some (.arr ((uniqueTags
            ((ts.map jsTrim).filter (fun x => !x.isEmpty))).map .str)) ∧
        normalizeTags (objGet (applyMetaUpdates pf u) tagsKey) =
          uniqueTags ((ts.map jsTrim).filter (fun x => !x.isEmpty)))) := by
  have hmeta : updatedMeta codec.parse content u =
      .ok (.obj (objSet mf payloadKey (.obj (applyMetaUpdates pf u)))) := by
    unfold updatedMeta
    simp only [hfirst, Bool.false_eq_true, if_false, hparse, hty, hpl]
    simp [truthy]
  have hok : updateSessionMetadata codec content u = .ok (joinSep '\n'
      (codec.stringify (.obj (objSet mf payloadKey
        (.obj (applyMetaUpdates pf u)))) :: (splitOnChar '\n' content).tail)) := by
    unfold updateSessionMetadata
    rw [hmeta]
  have hsne' : codec.stringify (.obj (objSet mf payloadKey
      (.obj (applyMetaUpdates pf u)))) ≠ [] := by
    intro h
    rw [h] at hsne
    simp at hsne
  have hsplitnew : splitOnChar '\n' (joinSep '\n'
      (codec.stringify (.obj (objSet mf payloadKey
        (.obj (applyMetaUpdates pf u)))) :: (splitOnChar '\n' content).tail)) =
      codec.stringify (.obj (objSet mf payloadKey
        (.obj (applyMetaUpdates pf u)))) :: (splitOnChar '\n' content).tail := by
    apply splitOnChar_joinSep _ _ (by simp)
    intro l hl
    rcases List.mem_cons.mp hl with rfl | hl
    · exact hnl
    · exact splitOnChar_sep_not_mem '\n' content l (List.mem_of_mem_tail hl)
  have hnewne : joinSep '\n'
      (codec.stringify (.obj (objSet mf payloadKey
        (.obj (applyMetaUpdates pf u)))) :: (splitOnChar '\n' content).tail) ≠ [] :=
    joinSep_cons_ne_nil '\n' _ hsne'
  have htyp' : objGet (objSet mf payloadKey
      (.obj (applyMetaUpdates pf u))) typeKey = some (.str "session_meta".data) := by
    rw [objGet_objSet_ne _ _ (by decide : typeKey ≠ payloadKey)]
    exact hty
  have hpl' : objGet (objSet mf payloadKey
      (.obj (applyMetaUpdates pf u))) payloadKey =
      some (.obj (applyMetaUpdates pf u)) :=
    objGet_objSet_self _ _ _
  have hreparse : parseSessionTitleTags codec.parse (joinSep '\n'
      (codec.stringify (.obj (objSet mf payloadKey
        (.obj (applyMetaUpdates pf u)))) :: (splitOnChar '\n' content).tail)) =
      some (pickTitle (.obj (applyMetaUpdates pf u)),
        normalizeTags (objGet (applyMetaUpdates pf u) tagsKey)) := by
    unfold parseSessionTitleTags readFirstLine
    have hei : (joinSep '\n'
        (codec.stringify (.obj (objSet mf payloadKey
          (.obj (applyMetaUpdates pf u)))) ::
          (splitOnChar '\n' content).tail)).isEmpty = false := by
      cases hc : joinSep '\n' (codec.stringify (.obj (objSet mf payloadKey
          (.obj (applyMetaUpdates pf u)))) :: (splitOnChar '\n' content).tail) with
      | nil => exact absurd hc hnewne
      | cons a l => simp
    simp only [hei, Bool.false_eq_true, if_false, hsplitnew, List.headD_cons,
      hsne, hrt]
    have hjty : jsGet (.obj (objSet mf payloadKey
        (.obj (applyMetaUpdates pf u)))) typeKey =
        some (.str "session_meta".data) := htyp'
    have hjpl : jsGet (.obj (objSet mf payloadKey
        (.obj (applyMetaUpdates pf u)))) payloadKey =
        some (.obj (applyMetaUpdates pf u)) := hpl'
    simp only [hjty, hjpl]
    simp [truthy, jsGet]
  refine ⟨hok, hreparse, ?_, ?_, ?_⟩
  · intro t hti hne'
    have h1 := objGet_applyTitleUpdate_set pf t hne'
    have hT : objGet (applyMetaUpdates pf u) titleKey =
        some (.str (jsTrim t)) := by
      unfold applyMetaUpdates
      rw [objGet_applyTagsUpdate_ne _ _ (by decide : titleKey ≠ tagsKey), hti]
      exact h1.1
    have hN : objGet (applyMetaUpdates pf u) nameKey =
        some (.str (jsTrim t)) := by
      unfold applyMetaUpdates
      rw [objGet_applyTagsUpdate_ne _ _ (by decide : nameKey ≠ tagsKey), hti]
      exact h1.2
    exact ⟨hT, hN, pickTitle_of_title _ _ hT (jsTrim_idem t) hne'⟩
  · intro t hti hemp
    have h1 := objGet_applyTitleUpdate_del pf t hemp
    have hT : objGet (applyMetaUpdates pf u) titleKey = none := by
      unfold applyMetaUpdates
      rw [objGet_applyTagsUpdate_ne _ _ (by decide : titleKey ≠ tagsKey), hti]
      exact h1.1
    have hN : objGet (applyMetaUpdates pf u) nameKey = none := by
      unfold applyMetaUpdates
      rw [objGet_applyTagsUpdate_ne _ _ (by decide : nameKey ≠ tagsKey), hti]
      exact h1.2
    exact ⟨hT, hN, pickTitle_of_none _ hT hN⟩
  · intro ts hts
    constructor
    · intro hemp
      have hT : objGet (applyMetaUpdates pf u) tagsKey = none := by
        unfold applyMetaUpdates
        rw [hts]
        exact (objGet_applyTagsUpdate_some _ ts).1 hemp
      exact ⟨hT, by rw [hT]; rfl⟩
    · intro hne'
      have hT : objGet (applyMetaUpdates pf u) tagsKey =
          some (.arr ((uniqueTags
            ((ts.map jsTrim).filter (fun x => !x.isEmpty))).map .str)) := by
        unfold applyMetaUpdates
        rw [hts]
        exact (objGet_applyTagsUpdate_some _ ts).2 hne'
      refine ⟨hT, ?_⟩
      rw [hT]
      exact normalizeTags_cleaned ts

/-- C2 (witness).  The round-trip theorem instantiated on a concrete file
`"J\nrest"`: the trimmed title `"New"` lands in both fields, the tag list
cleans to `["a"]`, and re-parsing the written file reflects both. -/
theorem updateSessionMetadata_roundtrip_witness :
    updateSessionMetadata testCodec "J\nrest".data testUpdates =
      .ok "M\nrest".data ∧
    objGet (applyMetaUpdates testPayloadFields testUpdates) titleKey =
      some (.str "New".data) ∧
    objGet (applyMetaUpdates testPayloadFields testUpdates) nameKey =
      some (.str "New".data) ∧
    objGet (applyMetaUpdates testPayloadFields testUpdates) tagsKey =
      some (.arr [.str "a".data]) ∧
    parseSessionTitleTags testCodec.parse "M\nrest".data =
      some (some "New".data, ["a".data]) := by
  have h := updateSessionMetadata_roundtrip testCodec "J\nrest".data
    testUpdates testMetaFields testPayloadFields (by decide) rfl rfl rfl rfl
    (by decide) (by decide)
  have htitle := h.2.2.1 " New ".data rfl (by decide)
  have htags := (h.2.2.2.2 ["a".data, "A".data, "".data] rfl).2 (by decide)
  exact ⟨h.1, htitle.1, htitle.2.1, htags.1, h.2.1⟩

/-- C6.  `updateSessionMetadata` rewrites only the first line of the file:
when it succeeds, every line after the first is identical byte-for-byte
before and after the update (assuming the serialized envelope contains no
newline, which `JSON.stringify` guarantees). -/
theorem updateSessionMetadata_frame (codec : JsonCodec) (content : List Char)
    (u : MetaUpdates) (m' : JsonVal)
    (hm : updatedMeta codec.parse content u = .ok m')
    (hnl : '\n' ∉ codec.stringify m') :
    ∀ newContent, updateSessionMetadata codec content u = .ok newContent →
      (splitOnChar '\n' newContent).tail = (splitOnChar '\n' content).tail := by
  intro newContent hok
  have hval : newContent = joinSep '\n'
      (codec.stringify m' :: (splitOnChar '\n' content).tail) := by
    unfold updateSessionMetadata at hok
    rw [hm] at hok
    injection hok with h
    exact h.symm
  have hsplit : splitOnChar '\n' (joinSep '\n'
      (codec.stringify m' :: (splitOnChar '\n' content).tail)) =
      codec.stringify m' :: (splitOnChar '\n' content).tail := by
    apply splitOnChar_joinSep _ _ (by simp)
    intro l hl
    rcases List.mem_cons.mp hl with rfl | hl
    · exact hnl
    · exact splitOnChar_sep_not_mem '\n' content l (List.mem_of_mem_tail hl)
  rw [hval, hsplit, List.tail_cons]

/-- C6 (witness).  The frame theorem instantiated on the concrete file
`"J\nrest"`: after the update the second line is still `"rest"`. -/
theorem updateSessionMetadata_frame_witness :
    (splitOnChar '\n' "M\nrest".data).tail =
      (splitOnChar '\n' "J\nrest".data).tail :=
  updateSessionMetadata_frame testCodec "J\nrest".data testUpdates
    testNewMeta rfl (by decide) "M\nrest".data rfl

/-- C3.  `setArchiveStatus` is a no-op returning the record's existing path
when the record is already in the target state (no move, no error); and
when archiving or restoring, an existing file at the computed destination
makes the operation fail with an "already exists" error while the file
system — in particular the destination file — is left unchanged. -/
theorem setArchiveStatus_spec (dp : List Char → Option Int)
    (mk : TsMatch → JsDate) (isoLabel : Int → List Char) (fs : FSState)
    (session : SessionRecord) (targetArchived : Bool) (paths : CodexPaths) :
    (session.archived = targetArchived →
      setArchiveStatus dp mk isoLabel fs session targetArchived paths =
        (.ok session.filePath, fs)) ∧
    (session.archived = false → targetArchived = true →
      fs.hasFile (joinPath paths.archivedDir session.fileName) = true →
      setArchiveStatus dp mk isoLabel fs session targetArchived paths =
        (.error "Archived session already exists.".data, fs)) ∧
    (session.archived = true → targetArchived = false →
      ∀ mt dest, fs.statMtime session.filePath = some mt →
        resolveActivePath dp mk isoLabel session.fileName session.timestamp
          ⟨some mt⟩ paths = .ok dest →
        fs.hasFile dest = true →
        setArchiveStatus dp mk isoLabel fs session targetArchived paths =
          (.error "Active session already exists.".data, fs)) := by
  refine ⟨?_, ?_, ?_⟩
  · intro h
    simp [setArchiveStatus, h]
  · intro ha ht hdest
    simp [setArchiveStatus, ha, ht, hdest]
  · intro ha ht mt dest hstat hres hdest
    simp [setArchiveStatus, ha, ht, hstat, hres, hdest]

/-- C3 (witness).  The three cases instantiated concretely: a no-op
un-archive of an active session, an archive blocked by an existing
destination, and a restore blocked by an existing date-bucketed
destination. -/
theorem setArchiveStatus_spec_witness :
    setArchiveStatus (fun _ => none) (fun _ => ⟨none⟩)
        (fun _ => "2025-01-02".data) testFS testActiveSession false testPaths =
      (.ok "A/f.jsonl".data, testFS) ∧
    setArchiveStatus (fun _ => none) (fun _ => ⟨none⟩)
        (fun _ => "2025-01-02".data) testFS testActiveSession true testPaths =
      (.error "Archived session already exists.".data, testFS) ∧
    setArchiveStatus (fun _ => none) (fun _ => ⟨none⟩)
        (fun _ => "2025-01-02".data) testFS testArchivedSession false testPaths =
      (.error "Active session already exists.".data, testFS) := by
  refine ⟨?_, ?_, ?_⟩
  · exact (setArchiveStatus_spec (fun _ => none) (fun _ => ⟨none⟩)
      (fun _ => "2025-01-02".data) testFS testActiveSession false testPaths).1 rfl
  · exact (setArchiveStatus_spec (fun _ => none) (fun _ => ⟨none⟩)
      (fun _ => "2025-01-02".data) testFS testActiveSession true testPaths).2.1
      rfl rfl (by decide)
  · exact (setArchiveStatus_spec (fun _ => none) (fun _ => ⟨none⟩)
      (fun _ => "2025-01-02".data) testFS testArchivedSession false testPaths).2.2
      rfl rfl 6 "S/2025/01/02/f.jsonl".data (by decide) rfl (by decide)

end CodexSM
